import Mathlib

/-!
# Verification of the STOCO training script (`STOCO/train.py`)

A shallow embedding of the algorithmic core of `train.py`:

* the batch interleaving transform (`interleave` / `de_interleave`, lines 92-99);
* the two learning-rate schedule lambdas (lines 47-82);
* the pseudo-label generator of the training step (lines 461-472);
* the `depict` target construction and unsupervised loss (lines 477-489);
* the training-step orchestration relevant to metrics and to the diagnostic
  ground-truth labels (lines 434-518);
* the iterator restart pattern (lines 434-445) and the start-epoch handling
  of `main` (lines 137, 367-376).

Tensors are modelled by their leading-dimension slices (`List α`) where data
movement is the point, and by `Fin`-indexed functions into `ℝ` where the
claims are about real arithmetic.
-/

namespace STOCO

variable {α : Type*}

/-! ## Batch interleaving transform (train.py lines 92-99)

`interleave(x, size)` is `x.reshape([-1, size] + s[1:]).transpose(0, 1).reshape([-1] + s[1:])`
and `de_interleave(x, size)` is `x.reshape([size, -1] + s[1:]).transpose(0, 1).reshape([-1] + s[1:])`.
A tensor of shape `[N, ...]` is modelled as the list of its `N` leading-dimension
slices; a row-major `reshape([-1, k])` is then exactly "split the list into
consecutive rows of length `k`", `transpose(0, 1)` is matrix transpose of the
resulting rectangular list of rows, and the final flattening `reshape([-1])`
is `List.flatten`. -/

/-- Fuelled worker for `chunks`.  The fuel argument only forces termination;
`chunks` always supplies at least `l.length` fuel. -/
def chunksGo (k : ℕ) : ℕ → List α → List (List α)
  | 0, _ => []
  | _, [] => []
  | fuel + 1, a :: l => (a :: l).take k :: chunksGo k fuel ((a :: l).drop k)

/-- Row-major `x.reshape([-1, k] + s[1:])`: split the flat list of
leading-dimension slices into consecutive rows of length `k`.
(`chunks 0 l = []` is junk for the out-of-contract case `k = 0`.) -/
def chunks (k : ℕ) (l : List α) : List (List α) :=
  if k = 0 then [] else chunksGo k l.length l

/-- Tensor `t.transpose(0, 1)` for a rectangular list of rows, by recursion on the
common row length: column `0` (the heads) becomes the first output row, and
the tails are transposed recursively. -/
def transposeR : ℕ → List (List α) → List (List α)
  | 0, _ => []
  | k + 1, L => L.filterMap (fun r => r.head?) :: transposeR k (L.map (fun r => r.tail))

/-- Function `interleave(x, size)` from train.py lines 92-94: reshape to
`[-1, size, ...]`, transpose the first two axes, flatten back. -/
def interleave (x : List α) (size : ℕ) : List α :=
  (transposeR size (chunks size x)).flatten

/-- Function `de_interleave(x, size)` from train.py lines 97-99: reshape to
`[size, -1, ...]` (i.e. `size` rows of length `x.length / size`), transpose
the first two axes, flatten back. -/
def de_interleave (x : List α) (size : ℕ) : List α :=
  (transposeR (x.length / size) (chunks (x.length / size) x)).flatten

theorem chunksGo_congr (k : ℕ) (hk : 0 < k) :
    ∀ (f₁ f₂ : ℕ) (l : List α), l.length ≤ f₁ → l.length ≤ f₂ →
      chunksGo k f₁ l = chunksGo k f₂ l := by
  intro f₁
  induction f₁ with
  | zero =>
    intro f₂ l h1 _
    have hl : l = [] := List.eq_nil_of_length_eq_zero (Nat.le_zero.mp h1)
    subst hl
    cases f₂ <;> rfl
  | succ f ih =>
    intro f₂ l h1 h2
    cases l with
    | nil => cases f₂ <;> rfl
    | cons a t =>
      cases f₂ with
      | zero => simp at h2
      | succ f₂' =>
        simp only [chunksGo]
        congr 1
        have hd : ((a :: t).drop k).length = t.length + 1 - k := by
          simp [List.length_drop]
        refine ih f₂' _ ?_ ?_ <;> rw [hd] <;> simp at h1 h2 <;> omega

theorem chunks_nil (k : ℕ) : chunks k ([] : List α) = [] := by
  cases k <;> rfl

theorem chunks_cons (k : ℕ) (hk : 0 < k) (l : List α) (hl : l ≠ []) :
    chunks k l = l.take k :: chunks k (l.drop k) := by
  obtain ⟨a, t, rfl⟩ := List.exists_cons_of_ne_nil hl
  have hkne : ¬ k = 0 := Nat.pos_iff_ne_zero.mp hk
  unfold chunks
  rw [if_neg hkne, if_neg hkne, List.length_cons]
  simp only [chunksGo]
  congr 1
  exact chunksGo_congr k hk _ _ _ (by simp [List.length_drop]; omega) le_rfl

theorem chunks_append (k : ℕ) (a b : List α) (ha : a.length = k) (hk : 0 < k) :
    chunks k (a ++ b) = a :: chunks k b := by
  have hane : a ≠ [] := by
    intro h
    rw [h] at ha
    simp at ha
    omega
  have hne : a ++ b ≠ [] := fun h => hane (List.append_eq_nil.mp h).1
  rw [chunks_cons k hk _ hne, List.take_left' ha, List.drop_left' ha]

theorem chunks_flatten (k : ℕ) (hk : 0 < k) (L : List (List α))
    (hL : ∀ r ∈ L, r.length = k) : chunks k L.flatten = L := by
  induction L with
  | nil => simpa using chunks_nil k
  | cons r L ih =>
    rw [List.flatten_cons, chunks_append k r _ (hL r (by simp)) hk,
      ih (fun r' hr' => hL r' (by simp [hr']))]

theorem flatten_chunks (k : ℕ) (hk : 0 < k) (x : List α) :
    (chunks k x).flatten = x := by
  generalize hn : x.length = n
  induction n using Nat.strong_induction_on generalizing x with
  | _ n ih =>
    cases x with
    | nil => simp [chunks_nil]
    | cons a t =>
      rw [chunks_cons k hk _ (by simp), List.flatten_cons,
        ih (((a :: t).drop k).length) ?_ _ rfl]
      · exact List.take_append_drop k (a :: t)
      · subst hn
        simp [List.length_drop]
        omega

theorem chunks_length_mem_aux (k : ℕ) (hk : 0 < k) :
    ∀ (t : ℕ) (x : List α), x.length = k * t → ∀ r ∈ chunks k x, r.length = k := by
  intro t
  induction t with
  | zero =>
    intro x hx r hr
    have hnil : x = [] := List.eq_nil_of_length_eq_zero (by omega)
    subst hnil
    rw [chunks_nil] at hr
    simp at hr
  | succ t ih =>
    intro x hx r hr
    rw [Nat.mul_succ] at hx
    have hxne : x ≠ [] := by
      intro h
      subst h
      simp at hx
      omega
    rw [chunks_cons k hk x hxne] at hr
    rcases List.mem_cons.mp hr with rfl | hr'
    · rw [List.length_take]
      omega
    · refine ih (x.drop k) ?_ r hr'
      rw [List.length_drop]
      omega

theorem chunks_length_mem (k : ℕ) (hk : 0 < k) (x : List α) (hdvd : k ∣ x.length) :
    ∀ r ∈ chunks k x, r.length = k := by
  obtain ⟨t, ht⟩ := hdvd
  exact chunks_length_mem_aux k hk t x ht

theorem transposeR_length (k : ℕ) (L : List (List α)) :
    (transposeR k L).length = k := by
  induction k generalizing L with
  | zero => rfl
  | succ k ih => simp [transposeR, ih]

theorem filterMap_head_length (L : List (List α)) (h : ∀ r ∈ L, r ≠ []) :
    (L.filterMap (fun r => r.head?)).length = L.length := by
  induction L with
  | nil => rfl
  | cons r L ih =>
    rcases r with _ | ⟨a, t⟩
    · exact absurd rfl (h [] (by simp))
    · simp only [List.filterMap_cons, List.head?_cons, List.length_cons]
      rw [ih fun r' hr' => h r' (by simp [hr'])]

theorem transposeR_rows_length (k : ℕ) (L : List (List α))
    (hL : ∀ r ∈ L, r.length = k) :
    ∀ c ∈ transposeR k L, c.length = L.length := by
  induction k generalizing L with
  | zero => simp [transposeR]
  | succ k ih =>
    intro c hc
    rcases List.mem_cons.mp hc with rfl | hc'
    · refine filterMap_head_length L fun r hr => ?_
      intro hnil
      have := hL r hr
      rw [hnil] at this
      simp at this
    · have hrows : ∀ r ∈ L.map (fun r => r.tail), r.length = k := by
        intro r hr
        obtain ⟨r', hr', rfl⟩ := List.mem_map.mp hr
        have := hL r' hr'
        rw [List.length_tail, this]
        rfl
      have := ih (L.map (fun r => r.tail)) hrows c hc'
      simpa using this

theorem transposeR_heads (k : ℕ) :
    ∀ (r : List α) (L : List (List α)), r.length = k → (∀ r' ∈ L, r'.length = k) →
      (transposeR k (r :: L)).filterMap (fun c => c.head?) = r := by
  induction k with
  | zero =>
    intro r L hr _
    rw [List.eq_nil_of_length_eq_zero hr]
    rfl
  | succ k ih =>
    intro r L hr hL
    rcases r with _ | ⟨a, t⟩
    · simp at hr
    simp only [transposeR, List.map_cons, List.tail_cons, List.filterMap_cons,
      List.head?_cons]
    rw [ih t (L.map (fun r => r.tail)) (by simpa using hr) ?_]
    intro r' hr'
    obtain ⟨r'', hr'', rfl⟩ := List.mem_map.mp hr'
    have := hL r'' hr''
    rw [List.length_tail, this]
    rfl

theorem transposeR_tails (k : ℕ) :
    ∀ (r : List α) (L : List (List α)), r.length = k → (∀ r' ∈ L, r'.length = k) →
      (transposeR k (r :: L)).map (fun c => c.tail) = transposeR k L := by
  induction k with
  | zero => intro r L _ _; rfl
  | succ k ih =>
    intro r L hr hL
    rcases r with _ | ⟨a, t⟩
    · simp at hr
    simp only [transposeR, List.map_cons, List.tail_cons, List.filterMap_cons,
      List.head?_cons]
    rw [ih t (L.map (fun r => r.tail)) (by simpa using hr) ?_]
    intro r' hr'
    obtain ⟨r'', hr'', rfl⟩ := List.mem_map.mp hr'
    have := hL r'' hr''
    rw [List.length_tail, this]
    rfl

theorem transposeR_transposeR (k : ℕ) (L : List (List α))
    (hL : ∀ r ∈ L, r.length = k) :
    transposeR L.length (transposeR k L) = L := by
  induction L with
  | nil => rfl
  | cons r L ih =>
    have hr : r.length = k := hL r (by simp)
    have hL' : ∀ r' ∈ L, r'.length = k := fun r' h => hL r' (by simp [h])
    simp only [List.length_cons, transposeR]
    rw [transposeR_heads k r L hr hL', transposeR_tails k r L hr hL', ih hL']

theorem flatten_length_rect (L : List (List α)) (m : ℕ)
    (h : ∀ r ∈ L, r.length = m) : L.flatten.length = L.length * m := by
  induction L with
  | nil => simp
  | cons r L ih =>
    rw [List.flatten_cons, List.length_append, h r (by simp),
      ih (fun r' hr' => h r' (by simp [hr'])), List.length_cons]
    ring

/-- C1: for every tensor `x` whose leading dimension is a positive multiple
of `k`, `de_interleave(interleave(x, k), k)` equals `x` element-for-element:
the reshape/transpose/flatten of `interleave` (train.py lines 92-94) is exactly
inverted by `de_interleave` (lines 97-99). -/
theorem interleave_de_interleave (k : ℕ) (x : List α)
    (hpos : 0 < x.length) (hdvd : k ∣ x.length) :
    de_interleave (interleave x k) k = x := by
  have hk : 0 < k := by
    rcases Nat.eq_zero_or_pos k with rfl | h
    · have := Nat.eq_zero_of_zero_dvd hdvd
      omega
    · exact h
  have hrows : ∀ r ∈ chunks k x, r.length = k := chunks_length_mem k hk x hdvd
  have hTrows : ∀ c ∈ transposeR k (chunks k x), c.length = (chunks k x).length :=
    transposeR_rows_length k _ hrows
  have hlen : (interleave x k).length = k * (chunks k x).length := by
    unfold interleave
    rw [flatten_length_rect _ _ hTrows, transposeR_length]
  have hRpos : 0 < (chunks k x).length := by
    rcases x with _ | ⟨a, t⟩
    · simp at hpos
    · rw [chunks_cons k hk _ (by simp)]
      simp
  unfold de_interleave
  rw [hlen, Nat.mul_div_cancel_left _ hk]
  show (transposeR (chunks k x).length
    (chunks (chunks k x).length (transposeR k (chunks k x)).flatten)).flatten = x
  rw [chunks_flatten _ hRpos _ hTrows, transposeR_transposeR k _ hrows]
  exact flatten_chunks k hk x

/-- Witness for C1 at `x = [0, 1, 2, 3, 4, 5]`, `k = 2`. -/
theorem interleave_de_interleave_witness :
    0 < ([0, 1, 2, 3, 4, 5] : List ℕ).length ∧
      2 ∣ ([0, 1, 2, 3, 4, 5] : List ℕ).length ∧
      de_interleave (interleave ([0, 1, 2, 3, 4, 5] : List ℕ) 2) 2 = [0, 1, 2, 3, 4, 5] :=
  ⟨by decide, by decide,
    interleave_de_interleave 2 [0, 1, 2, 3, 4, 5] (by decide) (by decide)⟩

/-! ## Learning-rate schedules (train.py lines 47-82) -/

/-- The `_lr_lambda` closure of `get_cosine_schedule_with_warmup`
(train.py lines 53-60).  During warmup the multiplier is
`current_step / max(1, num_warmup_steps)`; afterwards it is
`max(0, cos(pi * num_cycles * no_progress))` with
`no_progress = (current_step - num_warmup_steps) / max(1, num_training_steps - num_warmup_steps)`.
In the Python source the subtraction in the denominator happens on ints and is
clamped by `max(1, .)`; the truncated `ℕ` subtraction below composed with
`max 1` gives the same value. -/
noncomputable def cosineLrLambda (numWarmupEpochs numTrainingEpochs numStepsPerEpoch : ℕ)
    (numCycles : ℝ) (currentStep : ℕ) : ℝ :=
  let numWarmupSteps := numWarmupEpochs * numStepsPerEpoch
  let numTrainingSteps := numTrainingEpochs * numStepsPerEpoch
  if currentStep < numWarmupSteps then
    (currentStep : ℝ) / ((max 1 numWarmupSteps : ℕ) : ℝ)
  else
    max 0 (Real.cos (Real.pi * numCycles *
      (((currentStep : ℝ) - (numWarmupSteps : ℝ)) /
        ((max 1 (numTrainingSteps - numWarmupSteps) : ℕ) : ℝ))))

/-- The `_lr_lambda` closure of `get_step_schedule_with_warmup`
(train.py lines 72-80), at the default `decay_epochs = [60, 120, 160, 200]`
and `decay_factor = 0.1` (exact as the rational `1/10`).  The Python chain
`s > d3 and 4 or s > d2 and 3 or s > d1 and 2 or s > d0 and 1 or 0`
evaluates to the first of `4, 3, 2, 1` whose strict comparison holds, else
`0`, i.e. the nested conditional below; `num_training_steps` is computed but
unused in the source. -/
def stepLrLambda (numWarmupEpochs numTrainingEpochs numStepsPerEpoch : ℕ)
    (currentStep : ℕ) : ℚ :=
  let numWarmupSteps := numWarmupEpochs * numStepsPerEpoch
  let _numTrainingSteps := numTrainingEpochs * numStepsPerEpoch
  if currentStep < numWarmupSteps then
    (currentStep : ℚ) / ((max 1 numWarmupSteps : ℕ) : ℚ)
  else
    (1/10 : ℚ) ^
      (if 200 * numStepsPerEpoch < currentStep then 4
       else if 160 * numStepsPerEpoch < currentStep then 3
       else if 120 * numStepsPerEpoch < currentStep then 2
       else if 60 * numStepsPerEpoch < currentStep then 1 else 0)

/-- The number of decay boundaries (epochs 60, 120, 160, 200, converted to
steps) already strictly passed by the current step. -/
def boundariesPassed (numStepsPerEpoch currentStep : ℕ) : ℕ :=
  (([60, 120, 160, 200].map (· * numStepsPerEpoch)).filter
    (fun d => d < currentStep)).length

/-- C5 (amended): the cosine-with-warmup multiplier is `s / warmup_steps`
during warmup (`0.5` at step 5 for `warmup_steps = 10`), equals
`max(0, cos(pi * (7/16) * (s - warmup)/(total - warmup)))` after warmup, is
never negative, and — restricted to steps up to `total_steps`, which the
as-stated claim omits — is non-increasing after warmup. -/
theorem cosine_schedule_amended :
    (∀ wE tE spe s, s < wE * spe →
        cosineLrLambda wE tE spe (7/16) s = (s : ℝ) / ((wE * spe : ℕ) : ℝ)) ∧
    (cosineLrLambda 10 20 1 (7/16) 5 = 1/2) ∧
    (∀ wE tE spe s, wE * spe ≤ s → wE * spe < tE * spe →
        cosineLrLambda wE tE spe (7/16) s =
          max 0 (Real.cos (Real.pi * (7/16) *
            (((s : ℝ) - ((wE * spe : ℕ) : ℝ)) /
              (((tE * spe : ℕ) : ℝ) - ((wE * spe : ℕ) : ℝ)))))) ∧
    (∀ wE tE spe s, 0 ≤ cosineLrLambda wE tE spe (7/16) s) ∧
    (∀ wE tE spe s₁ s₂, wE * spe ≤ s₁ → s₁ ≤ s₂ → s₂ ≤ tE * spe →
        cosineLrLambda wE tE spe (7/16) s₂ ≤ cosineLrLambda wE tE spe (7/16) s₁) := by
  refine ⟨?_, ?_, ?_, ?_, ?_⟩
  · intro wE tE spe s hs
    have hw : 1 ≤ wE * spe := by omega
    simp only [cosineLrLambda, if_pos hs]
    rw [max_eq_right hw]
  · have h5 : (5 : ℕ) < 10 * 1 := by norm_num
    simp only [cosineLrLambda, if_pos h5]
    rw [show (max 1 (10 * 1) : ℕ) = 10 by decide]
    norm_num
  · intro wE tE spe s hws hwt
    simp only [cosineLrLambda, if_neg (not_lt.mpr hws)]
    rw [max_eq_right (by omega : 1 ≤ tE * spe - wE * spe),
      Nat.cast_sub (le_of_lt hwt)]
  · intro wE tE spe s
    simp only [cosineLrLambda]
    split
    · positivity
    · exact le_max_left 0 _
  · intro wE tE spe s₁ s₂ hw1 h12 h2t
    have hw2 : wE * spe ≤ s₂ := le_trans hw1 h12
    have hwt : wE * spe ≤ tE * spe := le_trans hw2 h2t
    simp only [cosineLrLambda, if_neg (not_lt.mpr hw1), if_neg (not_lt.mpr hw2)]
    set w : ℕ := wE * spe with hwdef
    set tot : ℕ := tE * spe with htdef
    set D : ℝ := ((max 1 (tot - w) : ℕ) : ℝ) with hDdef
    have hD1 : (1 : ℝ) ≤ D := by
      rw [hDdef]
      exact_mod_cast le_max_left 1 (tot - w)
    have hD0 : (0 : ℝ) < D := lt_of_lt_of_le one_pos hD1
    have hsub : ((tot - w : ℕ) : ℝ) ≤ D := by
      rw [hDdef]
      exact_mod_cast le_max_right 1 (tot - w)
    have hcast : ((tot - w : ℕ) : ℝ) = (tot : ℝ) - (w : ℝ) := Nat.cast_sub hwt
    have hs1w : (w : ℝ) ≤ (s₁ : ℝ) := by exact_mod_cast hw1
    have hs12 : (s₁ : ℝ) ≤ (s₂ : ℝ) := by exact_mod_cast h12
    have hs2t : (s₂ : ℝ) ≤ (tot : ℝ) := by exact_mod_cast h2t
    have hr2 : ((s₂ : ℝ) - (w : ℝ)) / D ≤ 1 := by
      rw [div_le_one hD0]
      calc (s₂ : ℝ) - (w : ℝ) ≤ (tot : ℝ) - (w : ℝ) := by linarith
        _ = ((tot - w : ℕ) : ℝ) := hcast.symm
        _ ≤ D := hsub
    have hθ1nn : 0 ≤ Real.pi * (7/16) * (((s₁ : ℝ) - (w : ℝ)) / D) := by
      have h1 : (0 : ℝ) ≤ (s₁ : ℝ) - (w : ℝ) := by linarith
      have := Real.pi_pos
      positivity
    have hθle : Real.pi * (7/16) * (((s₂ : ℝ) - (w : ℝ)) / D) ≤ Real.pi := by
      have h0 : (0 : ℝ) ≤ ((s₂ : ℝ) - (w : ℝ)) / D := by
        have h1 : (0 : ℝ) ≤ (s₂ : ℝ) - (w : ℝ) := by linarith
        positivity
      nlinarith [Real.pi_pos]
    have hmono : Real.pi * (7/16) * (((s₁ : ℝ) - (w : ℝ)) / D) ≤
        Real.pi * (7/16) * (((s₂ : ℝ) - (w : ℝ)) / D) := by
      have h716 : (0 : ℝ) ≤ Real.pi * (7/16) := by
        have := Real.pi_pos
        positivity
      refine mul_le_mul_of_nonneg_left ?_ h716
      exact (div_le_div_iff_of_pos_right hD0).mpr (by linarith)
    exact max_le_max le_rfl
      (Real.cos_le_cos_of_nonneg_of_le_pi hθ1nn hθle hmono)

/-- Counterexample to C5 as stated: the multiplier is *not* non-increasing
on all steps `s ≥ warmup_steps`.  With `warmup_epochs = 0`,
`training_epochs = 1`, `steps_per_epoch = 1` the multiplier is `0` at step 2
(the cosine is negative and floored) but strictly positive again at step 5
(the cosine argument has wrapped past `3π/2`). -/
theorem cosine_schedule_counterexample :
    0 * 1 ≤ 2 ∧ (2 : ℕ) ≤ 5 ∧
      cosineLrLambda 0 1 1 (7/16) 2 < cosineLrLambda 0 1 1 (7/16) 5 := by
  refine ⟨by norm_num, by norm_num, ?_⟩
  have hpi := Real.pi_pos
  have h2 : cosineLrLambda 0 1 1 (7/16) 2 = 0 := by
    simp only [cosineLrLambda, if_neg (by norm_num : ¬ (2 : ℕ) < 0 * 1)]
    rw [show (max 1 (1 * 1 - 0 * 1) : ℕ) = 1 by decide]
    rw [show Real.pi * (7/16) * ((((2 : ℕ) : ℝ) - ((0 * 1 : ℕ) : ℝ)) / ((1 : ℕ) : ℝ)) =
        Real.pi * (7/8) by push_cast; ring]
    refine max_eq_left ?_
    refine Real.cos_nonpos_of_pi_div_two_le_of_le (by linarith) (by linarith)
  have h5 : 0 < cosineLrLambda 0 1 1 (7/16) 5 := by
    simp only [cosineLrLambda, if_neg (by norm_num : ¬ (5 : ℕ) < 0 * 1)]
    rw [show (max 1 (1 * 1 - 0 * 1) : ℕ) = 1 by decide]
    rw [show Real.pi * (7/16) * ((((5 : ℕ) : ℝ) - ((0 * 1 : ℕ) : ℝ)) / ((1 : ℕ) : ℝ)) =
        3 * Real.pi / 16 + 2 * Real.pi by push_cast; ring]
    rw [Real.cos_add_two_pi]
    have hcos : 0 < Real.cos (3 * Real.pi / 16) := by
      refine Real.cos_pos_of_mem_Ioo ⟨by linarith, by linarith⟩
    exact lt_max_of_lt_right hcos
  rw [h2]
  exact h5

/-- Witness for the warmup conjunct of C5 (amended): at
`warmup_epochs = 10`, `steps_per_epoch = 1`, step `5` is in warmup and the
multiplier equals `5/10`. -/
theorem cosine_schedule_witness :
    (5 : ℕ) < 10 * 1 ∧ cosineLrLambda 10 20 1 (7/16) 5 = (5 : ℝ) / ((10 * 1 : ℕ) : ℝ) :=
  ⟨by decide, cosine_schedule_amended.1 10 20 1 5 (by decide)⟩

/-- C6: the step schedule multiplier is `s / warmup_steps` during warmup,
`(1/10) ^ k` after warmup where `k` counts the decay boundaries
(epochs 60/120/160/200 in steps) already passed, and `1/10000` for any
after-warmup step beyond the epoch-200 boundary. -/
theorem step_schedule_spec :
    (∀ wE tE spe s, s < wE * spe →
        stepLrLambda wE tE spe s = (s : ℚ) / ((wE * spe : ℕ) : ℚ)) ∧
    (∀ wE tE spe s, wE * spe ≤ s →
        stepLrLambda wE tE spe s = (1/10 : ℚ) ^ boundariesPassed spe s) ∧
    (∀ wE tE spe s, wE * spe ≤ s → 200 * spe < s →
        stepLrLambda wE tE spe s = 1/10000) := by
  refine ⟨?_, ?_, ?_⟩
  · intro wE tE spe s hs
    have hw : 1 ≤ wE * spe := by omega
    simp only [stepLrLambda, if_pos hs]
    rw [max_eq_right hw]
  · intro wE tE spe s hs
    simp only [stepLrLambda, if_neg (not_lt.mpr hs)]
    congr 1
    simp only [boundariesPassed, List.map_cons, List.map_nil, List.filter_cons,
      List.filter_nil, decide_eq_true_eq]
    split_ifs <;> simp_all <;> omega
  · intro wE tE spe s hs h200
    simp only [stepLrLambda, if_neg (not_lt.mpr hs), if_pos h200]
    norm_num

/-- Witness for C6 beyond the epoch-200 boundary: with
`steps_per_epoch = 1` and no warmup, step 201 gets multiplier `1/10000`. -/
theorem step_schedule_witness :
    0 * 1 ≤ 201 ∧ 200 * 1 < 201 ∧ stepLrLambda 0 300 1 201 = 1/10000 :=
  ⟨by decide, by decide, step_schedule_spec.2.2 0 300 1 201 (by decide) (by decide)⟩

/-! ## Pseudo-label generator (train.py lines 461-472)

A batch of `Bu` unlabeled rows with `n` classes is modelled as a function
`Fin Bu → Fin n → ℝ`. -/

/-- Row softmax `torch.softmax(z / T, dim=-1)` (train.py lines 461, 466). -/
noncomputable def softmaxRow {n : ℕ} (T : ℝ) (z : Fin n → ℝ) : Fin n → ℝ :=
  fun j => Real.exp (z j / T) / ∑ j', Real.exp (z j' / T)

/-- Probability row of sampled-classifier pass `c`: pass `0` is
`softmax(logits_u_w.detach() / T)` (train.py line 461); pass `c + 1` is
`softmax(model['F'](features_u_w).detach() / T)` of the `c`-th re-run of the
classifier head on the cached weak-branch features (line 466), whose logits
are abstracted as the family `headLogits` since the classifier is an opaque
(stochastic) collaborator. -/
noncomputable def passProb {Bu n : ℕ} (T : ℝ) (logits_u_w : Fin Bu → Fin n → ℝ)
    (headLogits : ℕ → Fin Bu → Fin n → ℝ) : ℕ → Fin Bu → Fin n → ℝ
  | 0 => fun i => softmaxRow T (logits_u_w i)
  | c + 1 => fun i => softmaxRow T (headLogits c i)

/-- The accumulation loop of train.py lines 461-469: `pseudo_label_mul` and
`pseudo_label_sum` both start as clones of `softmax(logits_u_w / T)`; each of
the `num_classifiers - 1` further passes multiplies into the former and adds
into the latter; finally `pseudo_label_sum /= num_classifiers`.  Returns the
final `(pseudo_label_mul, pseudo_label_sum)`. -/
noncomputable def pseudoLabelPair {Bu n : ℕ} (T : ℝ) (numClassifiers : ℕ)
    (logits_u_w : Fin Bu → Fin n → ℝ) (headLogits : ℕ → Fin Bu → Fin n → ℝ) :
    (Fin Bu → Fin n → ℝ) × (Fin Bu → Fin n → ℝ) :=
  let p1 := fun i => softmaxRow T (logits_u_w i)
  let acc := (List.range (numClassifiers - 1)).foldl
    (fun (pmps : (Fin Bu → Fin n → ℝ) × (Fin Bu → Fin n → ℝ)) c =>
      (fun i j => pmps.1 i j * softmaxRow T (headLogits c i) j,
       fun i j => pmps.2 i j + softmaxRow T (headLogits c i) j))
    (p1, p1)
  (acc.1, fun i j => acc.2 i j / (numClassifiers : ℝ))

/-- Row maximum, `max_probs = torch.max(pseudo_label, dim=-1)[0]`
(train.py line 471). -/
noncomputable def rowMax {n : ℕ} [NeZero n] (p : Fin n → ℝ) : ℝ :=
  (List.finRange n).foldl (fun acc j => max acc (p j))
    (p ⟨0, Nat.pos_of_ne_zero (NeZero.ne n)⟩)

/-- Row argmax, `targets_u = torch.max(pseudo_label, dim=-1)[1]`
(train.py line 471): the first index attaining the row maximum (the running best is replaced only on a
strict increase). -/
noncomputable def rowArgmax {n : ℕ} [NeZero n] (p : Fin n → ℝ) : Fin n :=
  (List.finRange n).foldl (fun best j => if p best < p j then j else best)
    ⟨0, Nat.pos_of_ne_zero (NeZero.ne n)⟩

/-- Confidence mask `mask = max_probs.ge(args.confidence_threshold).float()`
(train.py line 472). -/
noncomputable def maskOf {n : ℕ} [NeZero n] (τ : ℝ) (p : Fin n → ℝ) : ℝ :=
  if τ ≤ rowMax p then 1 else 0

theorem pseudoLabelPair_loop {Bu n : ℕ} (T : ℝ)
    (headLogits : ℕ → Fin Bu → Fin n → ℝ) (p q : Fin Bu → Fin n → ℝ) (m : ℕ) :
    (List.range m).foldl
      (fun (pmps : (Fin Bu → Fin n → ℝ) × (Fin Bu → Fin n → ℝ)) c =>
        (fun i j => pmps.1 i j * softmaxRow T (headLogits c i) j,
         fun i j => pmps.2 i j + softmaxRow T (headLogits c i) j)) (p, q) =
      (fun i j => p i j * ∏ c ∈ Finset.range m, softmaxRow T (headLogits c i) j,
       fun i j => q i j + ∑ c ∈ Finset.range m, softmaxRow T (headLogits c i) j) := by
  induction m with
  | zero =>
    refine Prod.ext ?_ ?_ <;> funext i j <;> simp
  | succ m ih =>
    rw [List.range_succ, List.foldl_append, ih]
    simp only [List.foldl_cons, List.foldl_nil]
    refine Prod.ext ?_ ?_ <;> funext i j
    · simp only [Finset.prod_range_succ, mul_assoc]
    · simp only [Finset.sum_range_succ, add_assoc]

/-- C2: with `C = num_classifiers ≥ 1` sampled-classifier passes,
`p_mul` is the elementwise product of the `C` softmax passes (the first from
the weak-branch logits, the rest from re-running the classifier head),
`p_sum` is their sum divided by `C`, the hard target is the per-row argmax of
`p_mul`, the mask is `1` exactly where the row maximum of `p_mul` reaches the
threshold; row `[0.96, 0.02, 0.02]` at `τ = 0.95` gives mask `1` and target
class `0`, and any row with maximum `0.80` gives mask `0`. -/
theorem pseudo_label_generator_spec {Bu n : ℕ} (T : ℝ) (C : ℕ) (hC : 1 ≤ C)
    (logits_u_w : Fin Bu → Fin n → ℝ) (headLogits : ℕ → Fin Bu → Fin n → ℝ) :
    (∀ i j, (pseudoLabelPair T C logits_u_w headLogits).1 i j =
        ∏ c ∈ Finset.range C, passProb T logits_u_w headLogits c i j) ∧
    (∀ i j, (pseudoLabelPair T C logits_u_w headLogits).2 i j =
        (∑ c ∈ Finset.range C, passProb T logits_u_w headLogits c i j) / (C : ℝ)) ∧
    (∀ (m : ℕ) [NeZero m] (τ : ℝ) (p : Fin m → ℝ),
        (maskOf τ p = 1 ↔ τ ≤ rowMax p) ∧ (maskOf τ p = 0 ↔ ¬ τ ≤ rowMax p)) ∧
    rowArgmax (![0.96, 0.02, 0.02] : Fin 3 → ℝ) = 0 ∧
    maskOf 0.95 (![0.96, 0.02, 0.02] : Fin 3 → ℝ) = 1 ∧
    (∀ (m : ℕ) [NeZero m] (p : Fin m → ℝ), rowMax p = 0.80 →
        maskOf 0.95 p = 0) := by
  obtain ⟨m, rfl⟩ : ∃ m, C = m + 1 := ⟨C - 1, by omega⟩
  refine ⟨?_, ?_, ?_, ?_, ?_, ?_⟩
  · intro i j
    simp only [pseudoLabelPair, Nat.add_sub_cancel, pseudoLabelPair_loop]
    rw [Finset.prod_range_succ']
    simp only [passProb]
    ring
  · intro i j
    simp only [pseudoLabelPair, Nat.add_sub_cancel, pseudoLabelPair_loop]
    rw [Finset.sum_range_succ']
    simp only [passProb]
    ring_nf
  · intro m hm τ p
    have : NeZero m := hm
    constructor
    · simp only [maskOf]
      split <;> simp_all
    · simp only [maskOf]
      split <;> simp_all
  · have h3 : List.finRange 3 = [0, 1, 2] := by decide
    simp only [rowArgmax, h3, List.foldl_cons, List.foldl_nil]
    norm_num
  · have h3 : List.finRange 3 = [0, 1, 2] := by decide
    have hmax : rowMax (![0.96, 0.02, 0.02] : Fin 3 → ℝ) = 0.96 := by
      simp only [rowMax, h3, List.foldl_cons, List.foldl_nil]
      norm_num
    simp only [maskOf, hmax]
    norm_num
  · intro m hm p hp
    simp only [maskOf, hp]
    norm_num

/-- Constant-zero weak-branch logits of a one-row one-class batch, used by
the witnesses. -/
noncomputable def zeroRowLogits : Fin 1 → Fin 1 → ℝ := fun _ _ => 0

/-- Constant-zero classifier re-run logits of a one-row one-class batch, used
by the witnesses. -/
noncomputable def zeroHeadLogits : ℕ → Fin 1 → Fin 1 → ℝ := fun _ _ _ => 0

/-- Witness for C2 at `T = 1`, `C = 2`, a one-row one-class batch and
constant head logits: the closed forms and examples instantiated. -/
theorem pseudo_label_generator_witness :
    (pseudoLabelPair 1 2 zeroRowLogits zeroHeadLogits).1 0 0 =
        ∏ c ∈ Finset.range 2, passProb 1 zeroRowLogits zeroHeadLogits c 0 0 ∧
    rowArgmax (![0.96, 0.02, 0.02] : Fin 3 → ℝ) = 0 ∧
    maskOf 0.95 (![0.96, 0.02, 0.02] : Fin 3 → ℝ) = 1 :=
  have h := pseudo_label_generator_spec 1 2 (by decide) zeroRowLogits zeroHeadLogits
  ⟨h.1 0 0, h.2.2.2.1, h.2.2.2.2.1⟩

/-! ## The depict target construction (train.py lines 477-489) -/

/-- Row log-softmax `F.log_softmax(z, dim=-1)`. -/
noncomputable def logSoftmax {n : ℕ} (z : Fin n → ℝ) : Fin n → ℝ :=
  fun j => z j - Real.log (∑ j', Real.exp (z j'))

/-- Tensor `targets_u_aux` of train.py lines 487-488 in the single-process case
(`tensor_list = pseudo_label_sum`): `p_sum` divided columnwise by
`tensor_list.sum(0).pow(0.5)` — on the nonnegative tensors of the program
this power is `Real.sqrt` — then renormalized row-wise by
`targets_u_aux.sum(1)`. -/
noncomputable def targetsUAux {B n : ℕ} (psum : Fin B → Fin n → ℝ) :
    Fin B → Fin n → ℝ :=
  fun i j =>
    (psum i j / Real.sqrt (∑ i', psum i' j)) /
      (∑ j', psum i j' / Real.sqrt (∑ i', psum i' j'))

/-- The depict unsupervised loss
`Lu = -((targets_u_aux * F.log_softmax(logits_u, dim=-1)).sum(1) * mask).mean()`
(train.py line 489). -/
noncomputable def depictLu {B n : ℕ} (aux : Fin B → Fin n → ℝ)
    (logits_u : Fin B → Fin n → ℝ) (mask : Fin B → ℝ) : ℝ :=
  -((∑ i, (∑ j, aux i j * logSoftmax (logits_u i) j) * mask i) / (B : ℝ))

/-- C3 (amended): for a batch of *nonnegative* `p_sum` entries, every row
that is not all-zero sums to `1` after the depict normalization, and the
unsupervised loss is the negative batch mean of
`mask · Σ_classes targets_u_aux · log_softmax(logits_u)`.  (The as-stated
claim assumes only that the *batch* is not all-zero; `depict_rowsum_counterexample`
refutes that version.) -/
theorem depict_target_aux_rowsum {B n : ℕ} (psum : Fin B → Fin n → ℝ)
    (hnn : ∀ i j, 0 ≤ psum i j) (i : Fin B) (hrow : ∃ j, psum i j ≠ 0) :
    (∑ j, targetsUAux psum i j = 1) ∧
    (∀ (logits_u : Fin B → Fin n → ℝ) (mask : Fin B → ℝ),
        depictLu (targetsUAux psum) logits_u mask =
          -((∑ i', (∑ j, targetsUAux psum i' j * logSoftmax (logits_u i') j) *
              mask i') / (B : ℝ))) := by
  constructor
  · obtain ⟨j₀, hj₀⟩ := hrow
    have hj₀pos : 0 < psum i j₀ := lt_of_le_of_ne (hnn i j₀) (Ne.symm hj₀)
    have hcol : 0 < ∑ i', psum i' j₀ :=
      lt_of_lt_of_le hj₀pos
        (Finset.single_le_sum (fun i' _ => hnn i' j₀) (Finset.mem_univ i))
    have hdenom : 0 < ∑ j', psum i j' / Real.sqrt (∑ i', psum i' j') := by
      refine Finset.sum_pos' (fun j _ => ?_) ⟨j₀, Finset.mem_univ j₀, ?_⟩
      · exact div_nonneg (hnn i j) (Real.sqrt_nonneg _)
      · exact div_pos hj₀pos (Real.sqrt_pos.mpr hcol)
    simp only [targetsUAux]
    rw [← Finset.sum_div, div_self (ne_of_gt hdenom)]
  · intro logits_u mask
    rfl

/-- Counterexample to C3 as stated: the batch `[[1, 1], [0, 0]]` is not
all-zero, yet row `1` of `targets_u_aux` sums to `0`, not `1` (in the source
this row is `0/0`, i.e. NaN — not `1` either). -/
theorem depict_rowsum_counterexample :
    (∃ i j, (![![(1 : ℝ), 1], ![0, 0]] : Fin 2 → Fin 2 → ℝ) i j ≠ 0) ∧
      ∑ j, targetsUAux (![![(1 : ℝ), 1], ![0, 0]] : Fin 2 → Fin 2 → ℝ) 1 j ≠ 1 := by
  constructor
  · exact ⟨0, 0, by norm_num⟩
  · simp only [targetsUAux, Fin.sum_univ_two]
    norm_num

/-- Witness for C3 (amended) at the batch `[[1, 1], [0, 0]]` and row `0`
(nonnegative, row `0` nonzero): row `0` of `targets_u_aux` sums to `1`. -/
theorem depict_target_aux_rowsum_witness :
    ∑ j, targetsUAux (![![(1 : ℝ), 1], ![0, 0]] : Fin 2 → Fin 2 → ℝ) 0 j = 1 :=
  (depict_target_aux_rowsum (![![(1 : ℝ), 1], ![0, 0]] : Fin 2 → Fin 2 → ℝ)
    (by intro i j; fin_cases i <;> fin_cases j <;> norm_num) 0
    ⟨0, by norm_num⟩).1

/-! ## The training step (train.py lines 434-518)

The model pair `G`/`F` is an opaque collaborator, so the interleaved forward
pass is abstracted as a family of outputs indexed by the parameters, and the
backward/optimizer step as an abstract `optStep` that may inspect the loss as
a *function* of the parameters (which is all that gradients are derived
from).  The single-process path (`args.local_rank == -1`) is modelled, where
`tensor_list = pseudo_label_sum`. -/

/-- The step hyper-parameters (`args.T`, `args.lambda_u`,
`args.confidence_threshold`, `args.num_classifiers`,
`args.pseudo_label_method == 'depict'`, `args.rm_aug_s`). -/
structure StepConfig where
  T : ℝ
  lambdaU : ℝ
  threshold : ℝ
  numClassifiers : ℕ
  methodDepict : Bool
  rmAugS : Bool

/-- The outputs of the interleaved forward pass (train.py lines 450-466) as
functions of the model parameters: the de-interleaved labeled logits, the
weak- and strong-branch unlabeled logits, and the logits of the classifier
re-runs on the cached weak-branch features. -/
structure ForwardOut (B Bu n : ℕ) where
  logits_x : Fin B → Fin n → ℝ
  logits_u_w : Fin Bu → Fin n → ℝ
  logits_u_s : Fin Bu → Fin n → ℝ
  headLogits : ℕ → Fin Bu → Fin n → ℝ

/-- One row of `F.cross_entropy(logits, target)`:
`-log_softmax(logits)[target]`. -/
noncomputable def ceRow {n : ℕ} (z : Fin n → ℝ) (t : Fin n) : ℝ :=
  -(logSoftmax z t)

/-- The confidence mask of the unlabeled batch (train.py line 472). -/
noncomputable def stepMask {B Bu n : ℕ} [NeZero n] (cfg : StepConfig)
    (fo : ForwardOut B Bu n) : Fin Bu → ℝ :=
  fun i => maskOf cfg.threshold
    ((pseudoLabelPair cfg.T cfg.numClassifiers fo.logits_u_w fo.headLogits).1 i)

/-- The supervised loss `Lx = F.cross_entropy(logits_x, targets_x, 'mean')`
(train.py line 474). -/
noncomputable def stepLx {B Bu n : ℕ} (fo : ForwardOut B Bu n)
    (targets_x : Fin B → Fin n) : ℝ :=
  (∑ i, ceRow (fo.logits_x i) (targets_x i)) / (B : ℝ)

/-- The unsupervised loss `Lu` of train.py lines 476-491: the strong-branch
logits (or the weak ones under `--rm_aug_s`), fed either to the depict loss
or to the masked fixmatch cross-entropy against the hard targets. -/
noncomputable def stepLu {B Bu n : ℕ} [NeZero n] (cfg : StepConfig)
    (fo : ForwardOut B Bu n) : ℝ :=
  let pmul := (pseudoLabelPair cfg.T cfg.numClassifiers fo.logits_u_w fo.headLogits).1
  let psum := (pseudoLabelPair cfg.T cfg.numClassifiers fo.logits_u_w fo.headLogits).2
  let logitsU := if cfg.rmAugS then fo.logits_u_w else fo.logits_u_s
  if cfg.methodDepict then
    depictLu (targetsUAux psum) logitsU (stepMask cfg fo)
  else
    (∑ i, ceRow (logitsU i) (rowArgmax (pmul i)) * stepMask cfg fo i) / (Bu : ℝ)

/-- The total loss `loss = Lx + args.lambda_u * Lu` (train.py line 493). -/
noncomputable def stepLoss {B Bu n : ℕ} [NeZero n] (cfg : StepConfig)
    (fo : ForwardOut B Bu n) (targets_x : Fin B → Fin n) : ℝ :=
  stepLx fo targets_x + cfg.lambdaU * stepLu cfg fo

/-- The four diagnostic metric updates of train.py lines 515-518
(`noise_rates` receives a value together with a weight `mask.sum()`). -/
structure DiagUpdate where
  noiseRate : ℝ × ℝ
  mislabeledNum : ℝ
  noiseRateEstm : ℝ
  mislabeledNumEstm : ℝ

/-- What one pass through train.py lines 446-518 feeds to the meters and to
the optimizer: the scalar losses (for `losses`, `losses_x`, `losses_u`), the
post-step parameters, the mask rate (for `mask_probs`), and the optional
diagnostic updates — `none` exactly when the `mask.sum() != 0` guard at line
514 is false. -/
structure StepResult (P : Type*) where
  loss : ℝ
  lossX : ℝ
  lossU : ℝ
  params : P
  maskRate : ℝ
  diag : Option DiagUpdate

/-- One training step (train.py lines 446-518), single-process path. -/
noncomputable def trainStep {B Bu n : ℕ} [NeZero n] {P : Type*}
    (cfg : StepConfig) (forward : P → ForwardOut B Bu n)
    (optStep : P → (P → ℝ) → P) (θ : P) (targets_x : Fin B → Fin n)
    (targets_u_gt : Fin Bu → Fin n) : StepResult P :=
  let fo := forward θ
  let pmul := (pseudoLabelPair cfg.T cfg.numClassifiers fo.logits_u_w fo.headLogits).1
  let targetsU := fun i => rowArgmax (pmul i)
  let maskSum := ∑ i, stepMask cfg fo i
  let sel := Finset.univ.filter (fun i => stepMask cfg fo i = 1)
  let labeledErr :=
    (∑ i, if rowArgmax (fo.logits_x i) ≠ targets_x i then (1 : ℝ) else 0) / (B : ℝ)
  { loss := stepLoss cfg fo targets_x
    lossX := stepLx fo targets_x
    lossU := stepLu cfg fo
    params := optStep θ (fun θ' => stepLoss cfg (forward θ') targets_x)
    maskRate := maskSum / (Bu : ℝ)
    diag :=
      if maskSum ≠ 0 then
        some
          { noiseRate :=
              ((∑ i ∈ sel, if targetsU i ≠ targets_u_gt i then (1 : ℝ) else 0) /
                  (sel.card : ℝ),
                maskSum)
            mislabeledNum :=
              ∑ i ∈ sel, if targetsU i ≠ targets_u_gt i then (1 : ℝ) else 0
            noiseRateEstm := labeledErr
            mislabeledNumEstm := labeledErr * maskSum }
      else none }

/-- C4: the diagnostic ground-truth labels `targets_u_gt` of the
unlabeled batch never influence the loss or the parameter update: two
training steps that differ only in `targets_u_gt` produce the same total
loss, sub-losses, post-step parameters and mask rate — in the source
`targets_u_gt` is read only by the noise-rate/mislabeled diagnostic updates
(train.py lines 446, 515-516). -/
theorem targets_u_gt_noninterference {B Bu n : ℕ} [NeZero n] {P : Type*}
    (cfg : StepConfig) (forward : P → ForwardOut B Bu n)
    (optStep : P → (P → ℝ) → P) (θ : P) (targets_x : Fin B → Fin n)
    (gt₁ gt₂ : Fin Bu → Fin n) :
    (trainStep cfg forward optStep θ targets_x gt₁).loss =
        (trainStep cfg forward optStep θ targets_x gt₂).loss ∧
    (trainStep cfg forward optStep θ targets_x gt₁).lossX =
        (trainStep cfg forward optStep θ targets_x gt₂).lossX ∧
    (trainStep cfg forward optStep θ targets_x gt₁).lossU =
        (trainStep cfg forward optStep θ targets_x gt₂).lossU ∧
    (trainStep cfg forward optStep θ targets_x gt₁).params =
        (trainStep cfg forward optStep θ targets_x gt₂).params ∧
    (trainStep cfg forward optStep θ targets_x gt₁).maskRate =
        (trainStep cfg forward optStep θ targets_x gt₂).maskRate :=
  ⟨rfl, rfl, rfl, rfl, rfl⟩

/-- An all-zero forward output for a one-sample labeled and unlabeled batch
with `n` classes, used by the step witnesses. -/
noncomputable def zeroForward (n : ℕ) : ForwardOut 1 1 n :=
  ⟨fun _ _ => 0, fun _ _ => 0, fun _ _ => 0, fun _ _ _ => 0⟩

/-- Witness for C4: a concrete one-sample two-class step with
`targets_u_gt` flipped between `0` and `1`. -/
theorem targets_u_gt_noninterference_witness :
    (trainStep ⟨1, 1, 0.95, 1, false, false⟩ (fun _ : Unit => zeroForward 2)
        (fun θ _ => θ) () (fun _ => 0) (fun _ => 0)).loss =
      (trainStep ⟨1, 1, 0.95, 1, false, false⟩ (fun _ : Unit => zeroForward 2)
        (fun θ _ => θ) () (fun _ => 0) (fun _ => 1)).loss ∧
    (trainStep ⟨1, 1, 0.95, 1, false, false⟩ (fun _ : Unit => zeroForward 2)
        (fun θ _ => θ) () (fun _ => 0) (fun _ => 0)).params =
      (trainStep ⟨1, 1, 0.95, 1, false, false⟩ (fun _ : Unit => zeroForward 2)
        (fun θ _ => θ) () (fun _ => 0) (fun _ => 1)).params :=
  have h := targets_u_gt_noninterference ⟨1, 1, 0.95, 1, false, false⟩
    (fun _ : Unit => zeroForward 2) (fun θ _ => θ) () (fun _ => 0)
    (fun _ => 0) (fun _ => 1)
  ⟨h.1, h.2.2.2.1⟩

/-- C7: when the confidence mask sums to zero, none of the four
noise-rate/mislabeled diagnostic accumulators receives an update
(`diag = none` — skipped entirely, not updated with `0`/NaN), while the loss
and mask-rate meters are still fed; when the mask sum is nonzero all four are
updated. -/
theorem zero_mask_skips_diagnostics {B Bu n : ℕ} [NeZero n] {P : Type*}
    (cfg : StepConfig) (forward : P → ForwardOut B Bu n)
    (optStep : P → (P → ℝ) → P) (θ : P) (targets_x : Fin B → Fin n)
    (gt : Fin Bu → Fin n) :
    ((∑ i, stepMask cfg (forward θ) i) = 0 →
        (trainStep cfg forward optStep θ targets_x gt).diag = none) ∧
    ((∑ i, stepMask cfg (forward θ) i) ≠ 0 →
        ((trainStep cfg forward optStep θ targets_x gt).diag).isSome = true) ∧
    (trainStep cfg forward optStep θ targets_x gt).maskRate =
        (∑ i, stepMask cfg (forward θ) i) / (Bu : ℝ) ∧
    (trainStep cfg forward optStep θ targets_x gt).loss =
        stepLoss cfg (forward θ) targets_x := by
  refine ⟨?_, ?_, rfl, rfl⟩
  · intro h
    simp only [trainStep]
    rw [if_neg (not_not_intro h)]
  · intro h
    simp only [trainStep]
    rw [if_pos h]
    rfl

/-- Witness for C7: with threshold `2` no row can be masked (all
probabilities are at most `1`), so on a concrete one-sample one-class step the
mask sum is `0` and the diagnostics are skipped. -/
theorem zero_mask_skips_diagnostics_witness :
    (trainStep ⟨1, 1, 2, 1, false, false⟩ (fun _ : Unit => zeroForward 1)
        (fun θ _ => θ) () (fun _ => 0) (fun _ => 0)).diag = none := by
  refine (zero_mask_skips_diagnostics ⟨1, 1, 2, 1, false, false⟩
    (fun _ : Unit => zeroForward 1)
    (fun θ _ => θ) () (fun _ => 0) (fun _ => 0)).1 ?_
  have h1 : List.finRange 1 = [0] := by decide
  simp only [Fin.sum_univ_one, stepMask, zeroForward, pseudoLabelPair, maskOf,
    rowMax, h1, List.foldl_cons, List.foldl_nil]
  simp only [Nat.sub_self, List.range_zero, List.foldl_nil, softmaxRow,
    Fin.sum_univ_one]
  rw [div_self (Real.exp_ne_zero _)]
  norm_num

/-! ## Distributed all-gather of `p_sum` (train.py lines 478-487)

`p_sum` batches are modelled as lists of rational rows so that the gathered
result is computable. -/

/-- Model of train.py lines 480-482 with Python aliasing semantics:
`tensor_list = [pseudo_label_sum.clone()] * args.world_size` evaluates the
`clone()` once and builds a list whose `world_size` entries all reference
that single cloned tensor; `torch.distributed.all_gather(tensor_list, ...)`
then writes rank `r`'s `p_sum` batch into entry `r` for
`r = 0, ..., world_size - 1`, and since every entry aliases the same storage
each write overwrites the previous one, leaving the last rank's batch in the
shared cell (the fold below performs those writes in rank order);
`torch.cat(tensor_list, dim=0)` finally concatenates the aliased entries. -/
def gatherConcat (worldSize : ℕ) (rankPsum : ℕ → List (List ℚ))
    (localPsum : List (List ℚ)) : List (List ℚ) :=
  let cell := (List.range worldSize).foldl
    (fun (_cell : List (List ℚ)) r => rankPsum r) localPsum
  (List.replicate worldSize cell).flatten

/-- The gather described by the spec and the claim (the intended behaviour):
concatenate the *distinct* per-process `p_sum` batches along the batch axis. -/
def gatherConcatIntended (worldSize : ℕ) (rankPsum : ℕ → List (List ℚ)) :
    List (List ℚ) :=
  ((List.range worldSize).map rankPsum).flatten

/-- The shared cell ends up holding the last rank's batch, so the
concatenation is `world_size` copies of that single batch. -/
theorem gatherConcat_collapses (worldSize : ℕ) (hws : 1 ≤ worldSize)
    (rankPsum : ℕ → List (List ℚ)) (localPsum : List (List ℚ)) :
    gatherConcat worldSize rankPsum localPsum =
      (List.replicate worldSize (rankPsum (worldSize - 1))).flatten := by
  obtain ⟨m, rfl⟩ : ∃ m, worldSize = m + 1 := ⟨worldSize - 1, by omega⟩
  simp only [gatherConcat, List.range_succ, List.foldl_append, List.foldl_cons,
    List.foldl_nil, Nat.add_sub_cancel]

/-- C8 fails on the code: at world size 2 with rank-0 batch `[[1, 0]]`
and rank-1 batch `[[0, 1]]`, the concatenation the normalization sums over is
two copies of rank 1's batch — not the two distinct per-process batches the
claim (and the spec) describe. -/
theorem all_gather_aliasing_bug :
    gatherConcat 2 (fun r => if r = 0 then [[1, 0]] else [[0, 1]]) [[1, 0]] =
        [[0, 1], [0, 1]] ∧
    gatherConcatIntended 2 (fun r => if r = 0 then [[1, 0]] else [[0, 1]]) =
        [[1, 0], [0, 1]] ∧
    gatherConcat 2 (fun r => if r = 0 then [[1, 0]] else [[0, 1]]) [[1, 0]] ≠
      gatherConcatIntended 2 (fun r => if r = 0 then [[1, 0]] else [[0, 1]]) :=
  ⟨by decide, by decide, by decide⟩

/-! ## Batch fetching with restart (train.py lines 434-445) -/

/-- A Python exception as seen by the fetch: the `StopIteration` raised by an
exhausted iterator, or any other exception (worker crash, bad batch, ...). -/
inductive PyExc : Type
  | stopIteration : PyExc
  | other : ℕ → PyExc

/-- The fetch pattern of train.py lines 434-445: `try: ... = iter.next()`
with a *bare* `except:` that rebuilds the iterator from its `DataLoader` and
fetches once more, unprotected.  `firstFetch` is the outcome of the `try`
body, `retryFetch` the outcome of the single retried fetch on the fresh
iterator. -/
def fetchWithRestart {β : Type*} (firstFetch : Except PyExc β)
    (retryFetch : Except PyExc β) : Except PyExc β :=
  match firstFetch with
  | Except.ok v => Except.ok v
  | Except.error _ => retryFetch

/-- C9: any exception from the first fetch — not only `StopIteration` —
is swallowed by the bare `except:` and answered by exactly one retried fetch
from the recreated iterator, whose outcome (value or exception) is returned
unchanged; hence a second failure propagates, and nothing distinguishes a
genuine loader failure from end-of-dataset wraparound. -/
theorem fetch_with_restart_spec {β : Type*} :
    (∀ (v : β) (r : Except PyExc β), fetchWithRestart (Except.ok v) r = Except.ok v) ∧
    (∀ (e : PyExc) (r : Except PyExc β), fetchWithRestart (Except.error e) r = r) ∧
    (∀ (e e' : PyExc),
        fetchWithRestart (β := β) (Except.error e) (Except.error e') =
          Except.error e') :=
  ⟨fun _ _ => rfl, fun _ _ => rfl, fun _ _ => rfl⟩

/-! ## Start-epoch handling in `main` (train.py lines 137, 367-376) -/

/-- The value of `args.start_epoch` at the top of the epoch loop
(`for epoch in range(args.start_epoch, args.epochs)`): argparse parses
`--start-epoch` (line 137) into `cliStartEpoch`, line 367 unconditionally
overwrites it with `0`, and only a resume (lines 369-376) overwrites it
again, with the checkpoint's stored `epoch` field. -/
def effectiveStartEpoch (_cliStartEpoch : ℕ) (resumeEpoch : Option ℕ) : ℕ :=
  let startEpoch := 0
  match resumeEpoch with
  | some ckptEpoch => ckptEpoch
  | none => startEpoch

/-- C10: `--start-epoch` has no effect on training — the epoch loop
starts at the same index for any two CLI values — and that index is `0`
unless `--resume` is given, in which case it is the resumed checkpoint's
stored epoch. -/
theorem start_epoch_ignored :
    (∀ (a b : ℕ) (resumeEpoch : Option ℕ),
        effectiveStartEpoch a resumeEpoch = effectiveStartEpoch b resumeEpoch) ∧
    (∀ a : ℕ, effectiveStartEpoch a none = 0) ∧
    (∀ (a e : ℕ), effectiveStartEpoch a (some e) = e) :=
  ⟨fun _ _ _ => rfl, fun _ => rfl, fun _ _ => rfl⟩

end STOCO
